import Mathlib

/-!
Verification of the commit-search subsystem of `willir/gitui`
(query compiler in `src/tabs/revlog.rs`, predicate evaluator and
asynchronous filtering engine in
`src/components/utils/async_commit_filter.rs`).

Rust strings are embedded as `List Char`; each Rust string primitive used
by the source (`find`, `contains`, `split`, `splitn`, `split_at`,
`strip_prefix`/`strip_suffix` of a single character, `trim`,
`to_lowercase` restricted to ASCII) is given its own executable
definition below.
-/

namespace Gitui

/-- ASCII lowercase folding of one character, the fragment of Rust
`char::to_lowercase` relevant to commit hashes and ASCII text. -/
def lowerChar (c : Char) : Char :=
  if 'A' ≤ c ∧ c ≤ 'Z' then Char.ofNat (c.toNat + 32) else c

/-- Rust `str::to_lowercase` (ASCII fragment). -/
def toLower (s : List Char) : List Char := s.map lowerChar

/-- Unicode `White_Space` property, as used by Rust `str::trim`. -/
def isWhitespaceChar (c : Char) : Bool :=
  c = ' ' || c = '\t' || c = '\n' || c = '\x0b' || c = '\x0c' ||
  c = '\r' || c = Char.ofNat 0x85 || c = Char.ofNat 0xA0 ||
  c = Char.ofNat 0x1680 ||
  (Char.ofNat 0x2000 ≤ c && c ≤ Char.ofNat 0x200A) ||
  c = Char.ofNat 0x2028 || c = Char.ofNat 0x2029 ||
  c = Char.ofNat 0x202F || c = Char.ofNat 0x205F ||
  c = Char.ofNat 0x3000

/-- Rust `str::trim_start`. -/
def trimStart (s : List Char) : List Char := s.dropWhile isWhitespaceChar

/-- Rust `str::trim`. -/
def trim (s : List Char) : List Char :=
  ((s.dropWhile isWhitespaceChar).reverse.dropWhile isWhitespaceChar).reverse

/-- Rust `str::find(pattern)`: index of the first occurrence of
`pat` in `s`, if any. -/
def findSub (pat : List Char) : List Char → Option Nat
  | [] => if pat.isEmpty then some 0 else none
  | c :: t =>
    if pat.isPrefixOf (c :: t) then some 0
    else (findSub pat t).map (· + 1)

/-- Rust `str::contains(pattern)`. -/
def containsSub (pat s : List Char) : Bool := (findSub pat s).isSome

/-- Rust `str::strip_prefix(c)` for a single character. -/
def stripPrefixChar (c : Char) (s : List Char) : Option (List Char) :=
  match s with
  | [] => none
  | x :: t => if x = c then some t else none

/-- Rust `str::strip_suffix(c)` for a single character. -/
def stripSuffixChar (c : Char) (s : List Char) : Option (List Char) :=
  (stripPrefixChar c s.reverse).map List.reverse

/-- Rust `Vec::join(sep)`: the pieces interleaved with the separator. -/
def joinSep (sep : List Char) : List (List Char) → List Char
  | [] => []
  | [x] => x
  | x :: y :: rest => x ++ sep ++ joinSep sep (y :: rest)

/-- The UTF-8 byte length of a string, `str::len()` in Rust. -/
def utf8Len (s : List Char) : Nat := (s.map Char.utf8Size).sum

/-- Rust `str::split_at(i)` with its byte-indexed contract: `i` counts
bytes, and the call panics (`none`) when `i` is not on a character
boundary or exceeds the byte length. -/
def byteSplitAt (n : Nat) (s : List Char) :
    Option (List Char × List Char) :=
  if n = 0 then some ([], s)
  else
    match s with
    | [] => none
    | c :: t =>
      if c.utf8Size ≤ n then
        (byteSplitAt (n - c.utf8Size) t).map
          (fun pr => (c :: pr.1, pr.2))
      else none

/-- Rust `str::find(pattern)` for an ASCII pattern, returning the BYTE
offset of the first occurrence as the source does. ASCII bytes never
occur inside a multi-byte UTF-8 encoding, so the first byte-level match
of an ASCII pattern is exactly the first character-level match, at the
byte offset of the characters before it. -/
def findSubByte (pat s : List Char) : Option Nat :=
  (findSub pat s).map (fun i => utf8Len (s.take i))

theorem findSub_some_bound {pat s : List Char} {i : Nat}
    (hpat : pat ≠ []) (h : findSub pat s = some i) :
    i + pat.length ≤ s.length ∧ 1 ≤ s.length := by
  induction s generalizing i with
  | nil =>
    simp [findSub, List.isEmpty_iff, hpat] at h
  | cons c t ih =>
    rw [findSub] at h
    by_cases hp : pat.isPrefixOf (c :: t)
    · simp [hp] at h
      subst h
      have hlen := List.IsPrefix.length_le (List.isPrefixOf_iff_prefix.mp hp)
      constructor
      · simpa using hlen
      · simp
    · simp [hp] at h
      obtain ⟨j, hj, hji⟩ := h
      have := (ih hj).1
      subst hji
      constructor
      · simp only [List.length_cons]
        omega
      · simp

/-- Fueled worker for `splitOnSub`; with fuel at least the length of the
string it realises Rust `str::split` for a nonempty separator
(splitting on non-overlapping occurrences, left to right). Structural
recursion on the fuel keeps it kernel-reducible. -/
def splitOnFuel (sep : List Char) : Nat → List Char → List (List Char)
  | 0, s => [s]
  | Nat.succ n, s =>
    match findSub sep s with
    | none => [s]
    | some i => s.take i :: splitOnFuel sep n (s.drop (i + sep.length))

/-- Rust `str::split(sep)` for a nonempty separator: splits on
non-overlapping occurrences of `sep`, left to right. -/
def splitOnSub (sep : List Char) (s : List Char) : List (List Char) :=
  if sep = [] then [s] else splitOnFuel sep s.length s

theorem splitOnFuel_adequate {sep : List Char} (hsep : sep ≠ []) :
    ∀ n m s, s.length ≤ n → s.length ≤ m →
      splitOnFuel sep n s = splitOnFuel sep m s := by
  intro n
  induction n using Nat.strong_induction_on with
  | _ n ih =>
    intro m s hn hm
    match n, m with
    | 0, m =>
      have hs : s = [] := List.eq_nil_of_length_eq_zero (Nat.le_zero.mp hn)
      subst hs
      cases m <;> simp [splitOnFuel, findSub, List.isEmpty_iff, hsep]
    | Nat.succ n, 0 =>
      have hs : s = [] := List.eq_nil_of_length_eq_zero (Nat.le_zero.mp hm)
      subst hs
      simp [splitOnFuel, findSub, List.isEmpty_iff, hsep]
    | Nat.succ n, Nat.succ m =>
      simp only [splitOnFuel]
      cases hfind : findSub sep s with
      | none => rfl
      | some i =>
        dsimp only
        have h1 := (findSub_some_bound hsep hfind).1
        have h3 : 0 < sep.length := List.length_pos.mpr hsep
        have hlt : (s.drop (i + sep.length)).length < s.length := by
          simp only [List.length_drop]; omega
        have e1 := ih (s.drop (i + sep.length)).length (by omega) n
          (s.drop (i + sep.length)) (le_refl _) (by omega)
        have e2 := ih (s.drop (i + sep.length)).length (by omega) m
          (s.drop (i + sep.length)) (le_refl _) (by omega)
        exact congrArg (List.take i s :: ·) (e1.symm.trans e2)

/-- Unfolding equation for `splitOnSub` with a nonempty separator. -/
theorem splitOnSub_eq {sep : List Char} (hsep : sep ≠ []) (s : List Char) :
    splitOnSub sep s =
      match findSub sep s with
      | none => [s]
      | some i => s.take i :: splitOnSub sep (s.drop (i + sep.length)) := by
  have hmain : splitOnSub sep s = splitOnFuel sep s.length s := by
    unfold splitOnSub; rw [if_neg hsep]
  rw [hmain]
  cases hlen : s.length with
  | zero =>
    have hs : s = [] := List.eq_nil_of_length_eq_zero hlen
    subst hs
    simp [splitOnFuel, findSub, List.isEmpty_iff, hsep]
  | succ n =>
    rw [splitOnFuel]
    cases hfind : findSub sep s with
    | none => rfl
    | some i =>
      dsimp only
      have hb := (findSub_some_bound hsep hfind).1
      have h3 : 0 < sep.length := List.length_pos.mpr hsep
      have h2 : splitOnSub sep (s.drop (i + sep.length)) =
          splitOnFuel sep (s.drop (i + sep.length)).length
            (s.drop (i + sep.length)) := by
        unfold splitOnSub; rw [if_neg hsep]
      rw [h2, splitOnFuel_adequate hsep n
        (s.drop (i + sep.length)).length (s.drop (i + sep.length))
        (by simp only [List.length_drop]; omega) (le_refl _)]

/-!
Field masks. The three field bits SHA/AUTHOR/MESSAGE are from the
`bitflags!` block of `async_commit_filter.rs`. The modifier bits and the
helper operations are referenced from `revlog.rs`
(`FilterBy::NOT`, `FilterBy::CASE_SENSITIVE`, `FilterBy::everywhere`,
`FilterBy::all`, `FilterBy::exclude_modifiers`, `FilterBy::try_from`)
but their definitions are not part of the excerpt; they are modelled
from the spec (§3: `Everywhere` = {HASH, AUTHOR, MESSAGE},
`All` = Everywhere ∪ {NOT, CASE_SENSITIVE}; §4.1: flag letters map to
field and modifier bits, unrecognized letters contribute nothing).
A mask is represented by one Bool per bit; bitflags union, containment,
emptiness and modifier removal become pointwise boolean operations.
-/

structure FilterBy where
  sha : Bool
  author : Bool
  message : Bool
  negated : Bool
  caseSensitive : Bool
deriving DecidableEq

def FilterBy.empty : FilterBy := ⟨false, false, false, false, false⟩

def FilterBy.SHA : FilterBy := ⟨true, false, false, false, false⟩

def FilterBy.AUTHOR : FilterBy := ⟨false, true, false, false, false⟩

def FilterBy.MESSAGE : FilterBy := ⟨false, false, true, false, false⟩

/-- Modelled from the spec: the NOT modifier bit (missing from the
excerpted `bitflags!` block, referenced by `revlog.rs`). -/
def FilterBy.NOT : FilterBy := ⟨false, false, false, true, false⟩

/-- Modelled from the spec: the CASE_SENSITIVE modifier bit (missing from
the excerpted `bitflags!` block, referenced by `revlog.rs`). -/
def FilterBy.CASE_SENSITIVE : FilterBy := ⟨false, false, false, false, true⟩

/-- Bitflags union `a | b`. -/
def FilterBy.or (a b : FilterBy) : FilterBy :=
  ⟨a.sha || b.sha, a.author || b.author, a.message || b.message,
   a.negated || b.negated, a.caseSensitive || b.caseSensitive⟩

/-- Bitflags method `a.contains(b)`: every bit of `b` is set in `a`. -/
def FilterBy.contains (a b : FilterBy) : Bool :=
  (!b.sha || a.sha) && (!b.author || a.author) &&
  (!b.message || a.message) && (!b.negated || a.negated) &&
  (!b.caseSensitive || a.caseSensitive)

/-- Bitflags method `is_empty`: no bit set. -/
def FilterBy.is_empty (a : FilterBy) : Bool :=
  !(a.sha || a.author || a.message || a.negated || a.caseSensitive)

/-- Modelled from the spec: `FilterBy::everywhere()` =
SHA | AUTHOR | MESSAGE (spec §3 `Everywhere`). -/
def FilterBy.everywhere : FilterBy := ⟨true, true, true, false, false⟩

/-- Modelled from the spec: `FilterBy::all()` = every bit
(spec §3 `All`). -/
def FilterBy.all : FilterBy := ⟨true, true, true, true, true⟩

/-- Modelled from the spec: `FilterBy::exclude_modifiers()` removes the
NOT and CASE_SENSITIVE bits (spec §4.1 "mask minus
{NOT, CASE_SENSITIVE}"). -/
def FilterBy.exclude_modifiers (a : FilterBy) : FilterBy :=
  ⟨a.sha, a.author, a.message, false, false⟩

/-- Modelled from the spec: `FilterBy::try_from(char)` with the
`unwrap_or(empty)` applied by `get_what_to_filter_by`: each recognized
flag letter maps to its bit, unrecognized characters contribute nothing
(spec §4.1; letters fixed by the unit tests of `revlog.rs`). -/
def FilterBy.try_from (ch : Char) : FilterBy :=
  if ch = 's' then FilterBy.SHA
  else if ch = 'a' then FilterBy.AUTHOR
  else if ch = 'm' then FilterBy.MESSAGE
  else if ch = '!' then FilterBy.NOT
  else if ch = 'c' then FilterBy.CASE_SENSITIVE
  else FilterBy.empty

/-- Modelled from the spec: `CommitRecord` (asyncgit's `CommitInfo`
declaration is outside the excerpt; spec §3 gives identifier, author,
message, timestamp). `id` holds the hash string
(`commit.id.to_string()` in the source). -/
structure CommitInfo where
  id : List Char
  author : List Char
  message : List Char
  time : Int
deriving DecidableEq

namespace AsyncCommitFilterer

/-- One term test of `AsyncCommitFilterer::filter`'s closure: the
boolean `b` computed for a `(s, filter)` pair against one commit
(`async_commit_filter.rs` lines 93–133). -/
def termTest (commit : CommitInfo) (s : List Char) (filter : FilterBy) :
    Bool :=
  (false
    || (if filter.contains FilterBy.SHA then
          if containsSub (toLower s) (toLower commit.id) then true
          else false
        else false))
    || (if filter.contains FilterBy.AUTHOR then
          if containsSub (toLower s) (toLower commit.author) then true
          else false
        else false)
    || (if filter.contains FilterBy.MESSAGE then
          if containsSub (toLower s) (toLower commit.message) then true
          else false
        else false)

/-- The `is_and` accumulation over one conjunction
(`for (s, filter) in to_and { is_and = is_and && b }`). -/
def conjFold (commit : CommitInfo)
    (to_and : List (List Char × FilterBy)) : Bool :=
  to_and.foldl (fun is_and p => is_and && termTest commit p.1 p.2) true

/-- The outer `for to_and in filter_strings` loop with its early
`return true`. -/
def commitMatchesLoop (commit : CommitInfo) :
    List (List (List Char × FilterBy)) → Bool
  | [] => false
  | to_and :: rest =>
    if conjFold commit to_and then true
    else commitMatchesLoop commit rest

/-- `AsyncCommitFilterer::filter`: keep, in order, the commits accepted
by the closure (`drain(..).filter(..).collect()`). -/
def filter (vec_commit_info : List CommitInfo)
    (filter_strings : List (List (List Char × FilterBy))) :
    List CommitInfo :=
  vec_commit_info.filter
    (fun commit => commitMatchesLoop commit filter_strings)

end AsyncCommitFilterer

namespace Revlog

/-- Rust `str::splitn(2, ' ')` as used by `get_what_to_filter_by`:
the text before the first space, and (when a space exists) the text
after it. -/
def splitn2Space (s : List Char) : List Char × Option (List Char) :=
  match findSub [' '] s with
  | none => (s, none)
  | some i => (s.take i, some (s.drop (i + 1)))

/-- Parsing of one `&&`-piece inside `Revlog::get_what_to_filter_by`
(`revlog.rs` lines 224–255). -/
def parsePiece (split_sub : List Char) : List Char × FilterBy :=
  if split_sub.head? ≠ some ':' then
    (split_sub, FilterBy.everywhere)
  else
    let first := (splitn2Space split_sub).1
    let to_filter_by :=
      (first.drop 1).foldl
        (fun acc ch => acc.or (FilterBy.try_from ch)) FilterBy.empty
    let to_filter_by :=
      if to_filter_by.exclude_modifiers.is_empty then
        to_filter_by.or FilterBy.everywhere
      else to_filter_by
    (trimStart (((splitn2Space split_sub).2).getD []), to_filter_by)

/-- `Revlog::get_what_to_filter_by`: split on `||`, split each side on
`&&`, trim each piece, parse it. -/
def get_what_to_filter_by (filter_by_str : List Char) :
    List (List (List Char × FilterBy)) :=
  (splitOnSub ['|', '|'] filter_by_str).map
    (fun or_part =>
      ((splitOnSub ['&', '&'] or_part).map trim).map parsePiece)

/-- The scanning loop of `Revlog::get_ending_bracket`
(`i` is the running index, `brack_count` the open-parenthesis depth). -/
def gebAux : List Char → Nat → Nat → Option Nat
  | [], _, _ => none
  | c :: t, i, brack_count =>
    if c = '(' then gebAux t (i + 1) (brack_count + 1)
    else if c = ')' then
      if brack_count = 0 then some i
      else gebAux t (i + 1) (brack_count - 1)
    else gebAux t (i + 1) brack_count

/-- `Revlog::get_ending_bracket`. -/
def get_ending_bracket (s : List Char) : Option Nat := gebAux s 0 0

/-- `Revlog::remove_out_brackets`. The source mixes index units: the
offset from `s.find("&&(")` is a byte index fed to the byte-indexed
`split_at` (always a character boundary, since it is where the ASCII
marker was found), but `get_ending_bracket` returns a CHARACTER index
(`chars().enumerate()`) that is also fed to the byte-indexed
`split_at` of `rest_of_string` — for multi-byte content before the
matching parenthesis, that second split lands short of it or panics
mid-character. `none` models the panic. -/
def remove_out_brackets (s : List Char) : Option (List Char) :=
  match findSubByte ['&', '&', '('] s with
  | some first_bracket =>
    match byteSplitAt (first_bracket + 3) s with
    | none => none
    | some (first, rest_of_string) =>
      match get_ending_bracket rest_of_string with
      | some last_bracket =>
        match byteSplitAt last_bracket rest_of_string with
        | none => none
        | some (second, third) =>
          match stripSuffixChar '(' first,
              stripPrefixChar ')' third with
          | some first2, some third2 =>
            some (joinSep ['|', '|']
              ((splitOnSub ['|', '|'] second).map
                (fun inside_bracket_item =>
                  first2 ++ inside_bracket_item ++ third2)))
          | _, _ => some s
      | none => some s
  | none => some s

/-- `Revlog::pre_process_string`, with explicit fuel: the Rust function
is a `while s.contains("&&(")` loop that rewrites `s` and breaks when a
pass changes nothing. The outer `none` means the loop has not exited
within `fuel` iterations; `some none` means a pass panicked in
`remove_out_brackets`; `some (some v)` means the loop returned `v`. -/
def pre_process_fuel : Nat → List Char → Option (Option (List Char))
  | 0, _ => none
  | Nat.succ n, s =>
    if containsSub ['&', '&', '('] s then
      match remove_out_brackets s with
      | none => some none
      | some s2 =>
        if s2 = s then some (some s2) else pre_process_fuel n s2
    else some (some s)

/-- The action `Revlog::filter` takes, as a function of the stored
`filter_string` and the new input (`revlog.rs` lines 263–284): on a
repeated string nothing happens; otherwise the input is preprocessed
and trimmed, an empty input stops the filter, and any other input
starts a new one with the compiled query. Fuel is needed because
preprocessing is a possibly diverging loop. -/
inductive FilterAction where
  | unchanged : FilterAction
  | stop : FilterAction
  | start : List (List (List Char × FilterBy)) → FilterAction
  | panicked : FilterAction
deriving DecidableEq

def filterAction (fuel : Nat) (filter_string filter_by : List Char) :
    Option FilterAction :=
  if filter_by = filter_string then some FilterAction.unchanged
  else
    match pre_process_fuel fuel filter_by with
    | none => none
    | some none => some FilterAction.panicked
    | some (some pre) =>
      let trimmed := trim pre
      if filter_by = [] then some FilterAction.stop
      else some (FilterAction.start (get_what_to_filter_by trimmed))

end Revlog

/-- `FilterStatus` from `async_commit_filter.rs`. -/
inductive FilterStatus where
  | Filtering : FilterStatus
  | Finished : FilterStatus
deriving DecidableEq

namespace AsyncCommitFilterer

/-- Modelled from the spec: asyncgit's `limit_str` (its definition is
outside the excerpt): message text truncated to the given number of
characters for display (spec §4.3 `fetch_page`). -/
def limit_str (s : List Char) (limit : Nat) : List Char := s.take limit

/-- Rust slice indexing `l[lo..hi]`: `none` models the panic taken when
the range is invalid, `some` the successful subslice. -/
def sliceChecked (lo hi : Nat) (l : List CommitInfo) :
    Option (List CommitInfo) :=
  if lo ≤ hi ∧ hi ≤ l.length then some ((l.drop lo).take (hi - lo))
  else none

/-- One more than the largest `usize` value on the standard 64-bit
target. -/
def USIZE : Nat := 2 ^ 64

/-- `AsyncCommitFilterer::get_filter_items`, as a function of the locked
accumulator contents: clamp, slice, truncate each copy's message. The
source's `let max = min + amount;` is a `usize` addition: on overflow
it wraps modulo 2^64 in release builds (debug builds panic right at the
addition); the wrap is modelled explicitly, and a wrapped `max` falls
below `min`, making the slice `fc[min..max]` panic (`none`). -/
def get_filter_items (start amount message_length_limit : Nat)
    (filtered_commits : List CommitInfo) : Option (List CommitInfo) :=
  let len := filtered_commits.length
  let mn := start.min len
  let mx := ((mn + amount) % USIZE).min len
  (sliceChecked mn mx filtered_commits).map
    (List.map (fun c =>
      { c with message := limit_str c.message message_length_limit }))

/-- The cross-thread state of `AsyncCommitFilterer` observable through
its accessors. The cancellation channel is modelled as the queue of
signals sent so far (`try_send` appends and never blocks); `none` means
no generation was ever started. -/
structure EngineState where
  filtered_commits : List CommitInfo
  filter_count : Nat
  filter_finished : Bool
  is_pending_local : Bool
  filter_thread_sender : Option (List Bool)
deriving DecidableEq

/-- `AsyncCommitFilterer::new`. -/
def newEngine : EngineState :=
  { filtered_commits := []
    filter_count := 0
    filter_finished := false
    is_pending_local := false
    filter_thread_sender := none }

/-- `AsyncCommitFilterer::fetch`. -/
def fetch (st : EngineState) : FilterStatus :=
  if st.filter_finished then FilterStatus.Finished
  else FilterStatus.Filtering

/-- `AsyncCommitFilterer::count`. -/
def count (st : EngineState) : Nat := st.filter_count

/-- `AsyncCommitFilterer::stop_filter`: push a cancellation signal if a
sender exists (ignoring errors), drop the local pending flag, mark the
status finished. -/
def stop_filter (st : EngineState) : EngineState :=
  { st with
    filter_thread_sender :=
      st.filter_thread_sender.map (fun ch => ch ++ [true])
    is_pending_local := false
    filter_finished := true }

/-- `AsyncCommitFilterer::is_pending`: the returned boolean and the
updated `RefCell` state. -/
def is_pending (st : EngineState) : Bool × EngineState :=
  if st.is_pending_local then
    let b := decide (fetch st = FilterStatus.Filtering)
    (b, { st with is_pending_local := b })
  else (false, st)

/-- One iteration's input to the worker loop of `start_filter`: a
successfully resolved slice together with the log source's pending
report, or one of the two transient failures (both just back off and
retry). -/
inductive LogEvent where
  | slice : List CommitInfo → Bool → LogEvent
  | sliceErr : LogEvent
  | infoErr : LogEvent
deriving DecidableEq

/-- The shared containers a generation writes: accumulator, counter,
finished flag. -/
structure SharedState where
  filtered_commits : List CommitInfo
  filter_count : Nat
  filter_finished : Bool
deriving DecidableEq

/-- The three writes a generation performs after acquiring both
completion guards: `filter_finished.store(false)`,
`filter_count.store(0)`, `filtered_commits.lock().clear()`. -/
def clearForGeneration (st : SharedState) : SharedState :=
  { st with
    filter_finished := false
    filter_count := 0
    filtered_commits := [] }

/-- The worker loop of `start_filter` (lines 180–240 of
`async_commit_filter.rs`), driven by the iteration inputs in order; the
Bool paired with each event tells whether a cancellation signal is
waiting at that iteration's `try_recv` check. Stops on cancellation, or
normally (setting the finished flag) on an empty slice with the log
source no longer pending; errors retry without touching the shared
state. -/
def workerSteps (filter_strings : List (List (List Char × FilterBy))) :
    List (LogEvent × Bool) → SharedState → SharedState
  | [], st => st
  | (LogEvent.slice v log_pending, canceled) :: rest, st =>
    if canceled then st
    else if v.length = 0 ∧ log_pending = false then
      { st with filter_finished := true }
    else
      workerSteps filter_strings rest
        { st with
          filtered_commits :=
            st.filtered_commits ++ filter v filter_strings
          filter_count :=
            st.filter_count + (filter v filter_strings).length }
  | (LogEvent.sliceErr, _) :: rest, st =>
    workerSteps filter_strings rest st
  | (LogEvent.infoErr, _) :: rest, st =>
    workerSteps filter_strings rest st

/-- One whole generation body: having acquired its own completion guard
and then the previous generation's (so the previous generation has fully
exited and no other writer exists), clear the shared state and run the
loop. `prev` is whatever the previous generation left in the shared
containers. -/
def workerGeneration
    (filter_strings : List (List (List Char × FilterBy)))
    (events : List (LogEvent × Bool)) (prev : SharedState) :
    SharedState :=
  workerSteps filter_strings events (clearForGeneration prev)

end AsyncCommitFilterer

/-- Modelled from the spec (§4.2): the term evaluation honoring the
CASE_SENSITIVE and NOT modifier bits. The excerpted
`async_commit_filter.rs` predates the modifier bits (its `bitflags!`
block lacks them) while `revlog.rs` and its unit tests already produce
them, so the modifier-aware comparison is modelled from the spec's
words: each selected field comparison is substring containment, folded
to lowercase unless CASE_SENSITIVE is set; the term matches if at least
one selected field comparison holds; the NOT bit then inverts that
boolean. -/
def termMatchesModifiers (commit : CommitInfo) (s : List Char)
    (f : FilterBy) : Bool :=
  let fold := fun str : List Char =>
    if f.contains FilterBy.CASE_SENSITIVE then str else toLower str
  let fieldHit :=
    (f.contains FilterBy.SHA && containsSub (fold s) (fold commit.id))
    || (f.contains FilterBy.AUTHOR &&
        containsSub (fold s) (fold commit.author))
    || (f.contains FilterBy.MESSAGE &&
        containsSub (fold s) (fold commit.message))
  if f.contains FilterBy.NOT then !fieldHit else fieldHit

/-- The bare field comparison of a term with no case folding at all:
substring containment in each field the mask selects. -/
def rawFieldHit (commit : CommitInfo) (s : List Char) (f : FilterBy) :
    Bool :=
  (f.contains FilterBy.SHA && containsSub s commit.id)
  || (f.contains FilterBy.AUTHOR && containsSub s commit.author)
  || (f.contains FilterBy.MESSAGE && containsSub s commit.message)

/-- A commit record with every searchable field folded to lowercase. -/
def lowerCommit (c : CommitInfo) : CommitInfo :=
  { c with
    id := toLower c.id
    author := toLower c.author
    message := toLower c.message }

/-!
Specification-side restatement of the predicate, following the claim's
wording: the fields a mask selects, as a list; a term matches when its
text is a (lowercase-folded) substring of at least one selected field; a
record matches when some conjunction has every term matching.
-/

/-- The searchable fields a mask selects on a record, in SHA, AUTHOR,
MESSAGE order. -/
def selectedFields (f : FilterBy) (commit : CommitInfo) :
    List (List Char) :=
  (if f.contains FilterBy.SHA then [commit.id] else [])
  ++ (if f.contains FilterBy.AUTHOR then [commit.author] else [])
  ++ (if f.contains FilterBy.MESSAGE then [commit.message] else [])

/-- Claim-side term match: the term text is a substring (after the
code's lowercase folding) of at least one of the fields its mask
selects. -/
def termMatchesSpec (commit : CommitInfo) (s : List Char)
    (f : FilterBy) : Bool :=
  (selectedFields f commit).any
    (fun fld => containsSub (toLower s) (toLower fld))

/-- Claim-side record match: at least one conjunction has every one of
its terms matching. -/
def matchesSpec (filter_strings : List (List (List Char × FilterBy)))
    (commit : CommitInfo) : Bool :=
  filter_strings.any
    (fun to_and =>
      to_and.all (fun pr => termMatchesSpec commit pr.1 pr.2))

/-! Helper lemmas about the evaluator. -/

theorem foldl_and_eq_all {α : Type} (p : α → Bool) (l : List α)
    (b : Bool) :
    l.foldl (fun acc x => acc && p x) b = (b && l.all p) := by
  induction l generalizing b with
  | nil => simp
  | cons x t ih => simp [List.foldl_cons, ih, Bool.and_assoc]

theorem conjFold_eq_all (commit : CommitInfo)
    (to_and : List (List Char × FilterBy)) :
    AsyncCommitFilterer.conjFold commit to_and =
      to_and.all
        (fun pr => AsyncCommitFilterer.termTest commit pr.1 pr.2) := by
  unfold AsyncCommitFilterer.conjFold
  rw [foldl_and_eq_all]
  simp

theorem commitMatchesLoop_eq_any (commit : CommitInfo)
    (fss : List (List (List Char × FilterBy))) :
    AsyncCommitFilterer.commitMatchesLoop commit fss =
      fss.any
        (fun to_and =>
          to_and.all
            (fun pr =>
              AsyncCommitFilterer.termTest commit pr.1 pr.2)) := by
  induction fss with
  | nil => rfl
  | cons h t ih =>
    rw [AsyncCommitFilterer.commitMatchesLoop, List.any_cons, ← ih,
      conjFold_eq_all]
    cases hall :
        h.all (fun pr => AsyncCommitFilterer.termTest commit pr.1 pr.2) with
    | true => simp
    | false => simp

theorem termTest_eq_spec (c : CommitInfo) (s : List Char)
    (f : FilterBy) :
    AsyncCommitFilterer.termTest c s f = termMatchesSpec c s f := by
  unfold AsyncCommitFilterer.termTest termMatchesSpec selectedFields
  cases h1 : f.contains FilterBy.SHA <;>
    cases h2 : f.contains FilterBy.AUTHOR <;>
      cases h3 : f.contains FilterBy.MESSAGE <;>
        simp [h1, h2, h3, Bool.or_assoc]

theorem commitMatchesLoop_eq_matchesSpec (c : CommitInfo)
    (fss : List (List (List Char × FilterBy))) :
    AsyncCommitFilterer.commitMatchesLoop c fss = matchesSpec fss c := by
  rw [commitMatchesLoop_eq_any]
  unfold matchesSpec
  congr 1
  funext to_and
  congr 1
  funext pr
  exact termTest_eq_spec c pr.1 pr.2

/-- C1: for every list of commit records and every compiled query, the
evaluator `filter` returns exactly the order-preserving subsequence of
the records matched by the disjunction-of-conjunctions predicate, where
a term matches when its text is a substring (after the code's lowercase
folding) of at least one of the fields its mask selects. -/
theorem c1_filter_is_matching_subsequence
    (v : List CommitInfo)
    (fss : List (List (List Char × FilterBy))) :
    AsyncCommitFilterer.filter v fss = v.filter (matchesSpec fss)
    ∧ List.Sublist (AsyncCommitFilterer.filter v fss) v := by
  constructor
  · unfold AsyncCommitFilterer.filter
    exact List.filter_congr
      (fun c _ => commitMatchesLoop_eq_matchesSpec c fss)
  · unfold AsyncCommitFilterer.filter
    exact List.filter_sublist v

/-- C10: evaluating any list of records against an empty compiled query
(zero conjunctions) matches nothing: the filter returns the empty
list. -/
theorem c10_empty_query_matches_nothing (v : List CommitInfo) :
    AsyncCommitFilterer.filter v [] = [] := by
  unfold AsyncCommitFilterer.filter
  simp [AsyncCommitFilterer.commitMatchesLoop]

theorem mem_filter_matches {c : CommitInfo} {v : List CommitInfo}
    {q : List (List (List Char × FilterBy))}
    (h : c ∈ AsyncCommitFilterer.filter v q) :
    AsyncCommitFilterer.commitMatchesLoop c q = true := by
  unfold AsyncCommitFilterer.filter at h
  exact (List.mem_filter.mp h).2

theorem workerSteps_preserves
    (q : List (List (List Char × FilterBy)))
    (events : List (AsyncCommitFilterer.LogEvent × Bool)) :
    ∀ st : AsyncCommitFilterer.SharedState,
      (∀ c ∈ st.filtered_commits,
        AsyncCommitFilterer.commitMatchesLoop c q = true) →
      ∀ c ∈ (AsyncCommitFilterer.workerSteps q events st).filtered_commits,
        AsyncCommitFilterer.commitMatchesLoop c q = true := by
  induction events with
  | nil => intro st h; exact h
  | cons e rest ih =>
    intro st h
    obtain ⟨ev, canceled⟩ := e
    cases ev with
    | slice v p =>
      rw [AsyncCommitFilterer.workerSteps]
      by_cases hc : canceled
      · rw [if_pos hc]; exact h
      · rw [if_neg hc]
        by_cases hv : v.length = 0 ∧ p = false
        · rw [if_pos hv]; exact h
        · rw [if_neg hv]
          apply ih
          intro c hcmem
          rw [List.mem_append] at hcmem
          cases hcmem with
          | inl hl => exact h c hl
          | inr hr => exact mem_filter_matches hr
    | sliceErr => rw [AsyncCommitFilterer.workerSteps]; exact ih st h
    | infoErr => rw [AsyncCommitFilterer.workerSteps]; exact ih st h

/-- C2: a generation's body first clears the shared accumulator and
counter (so its outcome is independent of whatever the superseded
generation left behind), and afterwards only appends records its own
query accepts: once the generation completes, every record in the
accumulator satisfies that generation's query, and none of the previous
generation's contents survive — no interleaving of two queries'
matches. The model runs generations sequentially, which is what the
chained completion guards enforce. -/
theorem c2_generation_isolated
    (q : List (List (List Char × FilterBy)))
    (events : List (AsyncCommitFilterer.LogEvent × Bool))
    (prev prev' : AsyncCommitFilterer.SharedState) :
    AsyncCommitFilterer.workerGeneration q events prev =
      AsyncCommitFilterer.workerGeneration q events prev'
    ∧ ∀ c ∈ (AsyncCommitFilterer.workerGeneration q events
        prev).filtered_commits,
        AsyncCommitFilterer.commitMatchesLoop c q = true := by
  constructor
  · rfl
  · apply workerSteps_preserves
    intro c hc
    simp [AsyncCommitFilterer.clearForGeneration] at hc

/-- Witness for C2 at a concrete generation: one batch containing one
commit whose author matches the query text. -/
theorem c2_generation_isolated_witness :
    AsyncCommitFilterer.commitMatchesLoop
      ⟨['a'], ['b'], ['c'], 0⟩
      [[(['a'], FilterBy.everywhere)]] = true :=
  (c2_generation_isolated [[(['a'], FilterBy.everywhere)]]
      [(AsyncCommitFilterer.LogEvent.slice [⟨['a'], ['b'], ['c'], 0⟩]
          true, false)]
      ⟨[], 0, false⟩ ⟨[⟨['z'], ['z'], ['z'], 9⟩], 1, true⟩).2
    ⟨['a'], ['b'], ['c'], 0⟩ (by decide)

/-- C7 counterexample: the never-panics claim fails when the `usize`
addition `min + amount` overflows. With an accumulator of length 5,
offset 5 and limit `usize::MAX - 2`, release builds wrap the addition
to `max = 2 < min = 5` and `fc[5..2]` panics (debug builds panic at the
addition itself), instead of returning the claimed window. -/
theorem c7_counterexample_usize_overflow :
    AsyncCommitFilterer.get_filter_items 5
      (AsyncCommitFilterer.USIZE - 3) 0
      [⟨[], [], [], 0⟩, ⟨[], [], [], 0⟩, ⟨[], [], [], 0⟩,
       ⟨[], [], [], 0⟩, ⟨[], [], [], 0⟩] = none := by decide

/-- C7 amended: provided `min(offset, L) + limit` does not overflow
`usize`, the pagination read never panics: it returns exactly the
message-truncated copies of the records between `min(offset, L)` and
`min(offset + limit, L)`, and an offset beyond the accumulator yields
the empty page rather than an error. -/
theorem c7_pagination_clamped
    (start amount limit : Nat) (fc : List CommitInfo)
    (hov : start.min fc.length + amount < AsyncCommitFilterer.USIZE) :
    AsyncCommitFilterer.get_filter_items start amount limit fc =
      some (((fc.drop (start.min fc.length)).take
        ((start + amount).min fc.length - start.min fc.length)).map
          (fun c =>
            { c with
              message :=
                AsyncCommitFilterer.limit_str c.message limit }))
    ∧ (fc.length < start →
        AsyncCommitFilterer.get_filter_items start amount limit fc =
          some []) := by
  have hwrap : (start.min fc.length + amount) %
      AsyncCommitFilterer.USIZE = start.min fc.length + amount :=
    Nat.mod_eq_of_lt hov
  have hmn_le : start.min fc.length ≤
      (start.min fc.length + amount).min fc.length := by
    simp only [Nat.min_def]; split_ifs <;> omega
  have hmx_le : (start.min fc.length + amount).min fc.length ≤
      fc.length := by
    simp only [Nat.min_def]; split_ifs <;> omega
  have hmx : (start.min fc.length + amount).min fc.length =
      (start + amount).min fc.length := by
    simp only [Nat.min_def]; split_ifs <;> omega
  have hfirst : AsyncCommitFilterer.get_filter_items start amount limit
      fc =
      some (((fc.drop (start.min fc.length)).take
        ((start + amount).min fc.length - start.min fc.length)).map
          (fun c =>
            { c with
              message :=
                AsyncCommitFilterer.limit_str c.message limit })) := by
    simp only [AsyncCommitFilterer.get_filter_items,
      AsyncCommitFilterer.sliceChecked]
    rw [hwrap, if_pos ⟨hmn_le, hmx_le⟩, hmx]
    simp
  refine ⟨hfirst, fun hlt => ?_⟩
  rw [hfirst]
  have e1 : start.min fc.length = fc.length := by
    simp only [Nat.min_def]; split_ifs <;> omega
  have e2 : (start + amount).min fc.length = fc.length := by
    simp only [Nat.min_def]; split_ifs <;> omega
  rw [e1, e2]
  simp

/-- Witness for C7's amended claim at a concrete in-bounds input. -/
theorem c7_pagination_clamped_witness :
    AsyncCommitFilterer.get_filter_items 3 5 10
      [⟨['a'], ['b'], ['c'], 0⟩] = some [] :=
  (c7_pagination_clamped 3 5 10 [⟨['a'], ['b'], ['c'], 0⟩]
    (by decide)).2 (by decide)

/-- C8: `stop_filter` always leaves the status Finished, leaves
`is_pending` false and never touches the match counter; on an engine
that never started a generation it is literally idempotent, and calling
it twice there leaves status Finished and count 0. -/
theorem c8_stop_filter_idempotent :
    (∀ st : AsyncCommitFilterer.EngineState,
      AsyncCommitFilterer.fetch (AsyncCommitFilterer.stop_filter st) =
        FilterStatus.Finished
      ∧ (AsyncCommitFilterer.is_pending
          (AsyncCommitFilterer.stop_filter st)).1 = false
      ∧ AsyncCommitFilterer.count (AsyncCommitFilterer.stop_filter st) =
          AsyncCommitFilterer.count st)
    ∧ AsyncCommitFilterer.stop_filter
        (AsyncCommitFilterer.stop_filter AsyncCommitFilterer.newEngine) =
        AsyncCommitFilterer.stop_filter AsyncCommitFilterer.newEngine
    ∧ AsyncCommitFilterer.count
        (AsyncCommitFilterer.stop_filter
          (AsyncCommitFilterer.stop_filter
            AsyncCommitFilterer.newEngine)) = 0
    ∧ AsyncCommitFilterer.fetch
        (AsyncCommitFilterer.stop_filter
          (AsyncCommitFilterer.stop_filter
            AsyncCommitFilterer.newEngine)) = FilterStatus.Finished := by
  refine ⟨fun st => ⟨?_, ?_, ?_⟩, ?_, ?_, ?_⟩
  · simp [AsyncCommitFilterer.stop_filter, AsyncCommitFilterer.fetch]
  · simp [AsyncCommitFilterer.stop_filter, AsyncCommitFilterer.is_pending]
  · simp [AsyncCommitFilterer.stop_filter, AsyncCommitFilterer.count]
  · rfl
  · rfl
  · rfl

/-- C9 counterexample: compiling the empty query string does not yield
an empty CompiledQuery — `get_what_to_filter_by("")` produces one
conjunction (holding one empty-text term). -/
theorem c9_counterexample_empty_compiles_nonempty :
    Revlog.get_what_to_filter_by [] ≠ [] := by decide

/-- C9 amended: compiling the empty query string yields one conjunction
containing a single term with empty text and mask `Everywhere` (not an
empty CompiledQuery); the caller never compiles the empty string —
`Revlog::filter` on an empty input (different from the stored one)
stops the filter instead of starting a new one. -/
theorem c9_empty_query_special_cased :
    Revlog.get_what_to_filter_by [] = [[([], FilterBy.everywhere)]]
    ∧ ∀ prev : List Char, prev ≠ [] → ∀ fuel : Nat,
        Revlog.filterAction (fuel + 1) prev [] =
          some Revlog.FilterAction.stop := by
  refine ⟨by decide, fun prev hprev fuel => ?_⟩
  unfold Revlog.filterAction
  rw [if_neg (fun h => hprev h.symm)]
  simp [Revlog.pre_process_fuel, containsSub, findSub]

/-- Witness for C9's amended claim at a concrete stored string. -/
theorem c9_empty_query_special_cased_witness :
    Revlog.filterAction 1 ['x'] [] = some Revlog.FilterAction.stop :=
  c9_empty_query_special_cased.2 ['x'] (by decide) 0

/-- C5: in the modifier-aware term evaluation, field comparisons are
folded to lowercase exactly when CASE_SENSITIVE is unset, and the NOT
bit inverts the boolean result of the field comparison before it enters
the conjunction. -/
theorem c5_modifier_semantics (c : CommitInfo) (s : List Char)
    (f : FilterBy) :
    (f.contains FilterBy.CASE_SENSITIVE = false →
      termMatchesModifiers c s f =
        (if f.contains FilterBy.NOT then
          !(rawFieldHit (lowerCommit c) (toLower s) f)
        else rawFieldHit (lowerCommit c) (toLower s) f))
    ∧ (f.contains FilterBy.CASE_SENSITIVE = true →
      termMatchesModifiers c s f =
        (if f.contains FilterBy.NOT then !(rawFieldHit c s f)
        else rawFieldHit c s f))
    ∧ (f.contains FilterBy.NOT = false →
      termMatchesModifiers c s (f.or FilterBy.NOT) =
        !(termMatchesModifiers c s f)) := by
  obtain ⟨b1, b2, b3, b4, b5⟩ := f
  refine ⟨fun h => ?_, fun h => ?_, fun h => ?_⟩ <;>
    simp [FilterBy.contains, FilterBy.CASE_SENSITIVE, FilterBy.NOT,
      FilterBy.SHA, FilterBy.AUTHOR, FilterBy.MESSAGE, FilterBy.or,
      termMatchesModifiers, rawFieldHit, lowerCommit] at h ⊢ <;>
    simp [h]

/-- Witness for C5 at a concrete record, term and mask. -/
theorem c5_modifier_semantics_witness :
    termMatchesModifiers ⟨['A'], ['B'], ['C'], 0⟩ ['a']
      (FilterBy.or FilterBy.everywhere FilterBy.NOT) =
      !(termMatchesModifiers ⟨['A'], ['B'], ['C'], 0⟩ ['a']
        FilterBy.everywhere) :=
  (c5_modifier_semantics ⟨['A'], ['B'], ['C'], 0⟩ ['a']
    FilterBy.everywhere).2.2 (by decide)

theorem parsePiece_mask_selects (piece : List Char) :
    ((Revlog.parsePiece piece).2.exclude_modifiers).is_empty = false := by
  unfold Revlog.parsePiece
  split
  · rfl
  · dsimp only
    split
    · cases hm : ((piece.drop 1).take
        ((splitOnSub [' '] piece).headI.length))
      all_goals
        simp [FilterBy.exclude_modifiers, FilterBy.or,
          FilterBy.everywhere, FilterBy.is_empty]
    · rename_i hcond
      simp only [Bool.not_eq_true] at hcond
      exact hcond

/-- C6: query compilation is total and never fails: every term mask it
produces selects at least one field (the `Everywhere` fallback fires
whenever the parsed modifiers select none), and unrecognized flag
characters contribute nothing to a mask. -/
theorem c6_compile_total_fallback :
    (∀ s : List Char, ∀ conj ∈ Revlog.get_what_to_filter_by s,
      ∀ t ∈ conj, ((t.2 : FilterBy).exclude_modifiers).is_empty = false)
    ∧ ∀ (acc : FilterBy) (ch : Char),
        ch ∉ (['s', 'a', 'm', '!', 'c'] : List Char) →
        acc.or (FilterBy.try_from ch) = acc := by
  constructor
  · intro s conj hconj t ht
    unfold Revlog.get_what_to_filter_by at hconj
    rw [List.mem_map] at hconj
    obtain ⟨or_part, _, rfl⟩ := hconj
    rw [List.mem_map] at ht
    obtain ⟨piece, _, rfl⟩ := ht
    exact parsePiece_mask_selects piece
  · intro acc ch h
    have hempty : FilterBy.try_from ch = FilterBy.empty := by
      simp only [List.mem_cons, List.not_mem_nil, or_false,
        not_or] at h
      obtain ⟨h1, h2, h3, h4, h5⟩ := h
      simp [FilterBy.try_from, h1, h2, h3, h4, h5]
    rw [hempty]
    obtain ⟨b1, b2, b3, b4, b5⟩ := acc
    simp [FilterBy.or, FilterBy.empty]

/-- Witness for C6: the mask compiled for a bare-modifier term `:!c foo`
still selects a field, and the unknown flag letter q adds nothing. -/
theorem c6_compile_total_fallback_witness :
    ((FilterBy.all).exclude_modifiers).is_empty = false
    ∧ FilterBy.or FilterBy.everywhere (FilterBy.try_from 'q') =
        FilterBy.everywhere :=
  ⟨c6_compile_total_fallback.1 [':', '!', 'c', ' ', 'f', 'o', 'o']
      [(['f', 'o', 'o'], FilterBy.all)] (by decide)
      (['f', 'o', 'o'], FilterBy.all) (by decide),
    c6_compile_total_fallback.2 FilterBy.everywhere 'q' (by decide)⟩

/-!
String lemmas for the bracket-elimination claims: where the marker
search lands, how the depth scan finds the matching close parenthesis,
and how splitting undoes joining.
-/

theorem mem_joinSep {c : Char} {sep : List Char} :
    ∀ {xss : List (List Char)}, c ∈ joinSep sep xss →
      c ∈ sep ∨ ∃ xs ∈ xss, c ∈ xs := by
  intro xss
  match xss with
  | [] => intro h; simp [joinSep] at h
  | [x] =>
    intro h
    exact Or.inr ⟨x, by simp, h⟩
  | x :: y :: rest =>
    intro h
    rw [joinSep] at h
    rcases List.mem_append.mp h with h1 | h2
    · rcases List.mem_append.mp h1 with ha | hb
      · exact Or.inr ⟨x, by simp, ha⟩
      · exact Or.inl hb
    · rcases mem_joinSep h2 with hs | ⟨xs, hxs, hin⟩
      · exact Or.inl hs
      · exact Or.inr ⟨xs, by simp [List.mem_cons.mp hxs], hin⟩

theorem findSub_none_of_not_mem {x : Char} {pat : List Char}
    (hx : x ∈ pat) :
    ∀ {s : List Char}, x ∉ s → findSub pat s = none := by
  intro s
  induction s with
  | nil =>
    intro _
    have : ¬pat.isEmpty := by
      cases pat with
      | nil => simp at hx
      | cons a t => simp
    simp [findSub, this]
  | cons c t ih =>
    intro hs
    rw [findSub]
    by_cases hp : pat.isPrefixOf (c :: t)
    · exact absurd
        ((List.isPrefixOf_iff_prefix.mp hp).subset hx) hs
    · rw [if_neg hp, ih (fun h => hs (List.mem_cons_of_mem c h))]
      rfl

theorem not_isPrefixOf_amp {p r : List Char} (hp : '(' ∉ p)
    (hne : p ≠ []) :
    (['&', '&', '('].isPrefixOf
      (p ++ '&' :: '&' :: '(' :: r)) = false := by
  match p, hp, hne with
  | [c], hp, _ => simp [List.isPrefixOf]
  | [c, d], hp, _ => simp [List.isPrefixOf]
  | c :: d :: e :: p', hp, _ =>
    have he : (('(' : Char) == e) = false := by
      rw [beq_eq_false_iff_ne]
      intro h
      exact hp (by rw [h]; simp)
    simp [List.isPrefixOf, he]

theorem findSub_amp_marker :
    ∀ (p : List Char) (r : List Char), '(' ∉ p →
      findSub ['&', '&', '('] (p ++ '&' :: '&' :: '(' :: r) =
        some p.length := by
  intro p
  induction p with
  | nil => intro r _; simp [findSub, List.isPrefixOf]
  | cons c p' ih =>
    intro r hp
    rw [List.cons_append, findSub]
    have hnp : ¬(['&', '&', '('].isPrefixOf
        ((c :: p') ++ '&' :: '&' :: '(' :: r) = true) := by
      rw [not_isPrefixOf_amp hp (by simp)]
      simp
    rw [List.cons_append] at hnp
    rw [if_neg hnp, ih r (fun h => hp (List.mem_cons_of_mem c h))]
    rfl

theorem findSub_pipe_marker :
    ∀ (b : List Char) (r : List Char), '|' ∉ b →
      findSub ['|', '|'] (b ++ '|' :: '|' :: r) = some b.length := by
  intro b
  induction b with
  | nil => intro r _; simp [findSub, List.isPrefixOf]
  | cons c b' ih =>
    intro r hb
    rw [List.cons_append, findSub]
    have hc : (('|' : Char) == c) = false := by
      rw [beq_eq_false_iff_ne]
      intro h
      exact hb (by rw [h]; simp)
    have hnp : ¬(['|', '|'].isPrefixOf
        (c :: (b' ++ '|' :: '|' :: r)) = true) := by
      simp [List.isPrefixOf, hc]
    rw [if_neg hnp, ih r (fun h => hb (List.mem_cons_of_mem c h))]
    rfl

theorem gebAux_through :
    ∀ (inside : List Char),
      (∀ c ∈ inside, c ≠ '(' ∧ c ≠ ')') →
      ∀ (r : List Char) (i : Nat),
        Revlog.gebAux (inside ++ ')' :: r) i 0 =
          some (i + inside.length) := by
  intro inside
  induction inside with
  | nil => intro _ r i; simp [Revlog.gebAux]
  | cons c t ih =>
    intro h r i
    have hc := h c (by simp)
    rw [List.cons_append, Revlog.gebAux, if_neg (by simp [hc.1]),
      if_neg (by simp [hc.2]),
      ih (fun d hd => h d (List.mem_cons_of_mem c hd)) r (i + 1)]
    congr 1
    simp only [List.length_cons]
    omega

theorem splitOnSub_joinSep :
    ∀ (bs : List (List Char)), bs ≠ [] →
      (∀ b ∈ bs, '|' ∉ b) →
      splitOnSub ['|', '|'] (joinSep ['|', '|'] bs) = bs := by
  intro bs
  match bs with
  | [] => intro h _; exact absurd rfl h
  | [x] =>
    intro _ hb
    rw [joinSep, splitOnSub_eq (by simp),
      findSub_none_of_not_mem (x := '|') (by simp) (hb x (by simp))]
  | x :: y :: rest =>
    intro _ hb
    have hx : '|' ∉ x := hb x (by simp)
    have hxy : joinSep ['|', '|'] (x :: y :: rest) =
        x ++ '|' :: '|' :: joinSep ['|', '|'] (y :: rest) := by
      rw [joinSep]; simp
    rw [hxy, splitOnSub_eq (by simp), findSub_pipe_marker x _ hx]
    have htake : (x ++ '|' :: '|' :: joinSep ['|', '|']
        (y :: rest)).take x.length = x := by
      rw [List.take_left' rfl]
    have hsplit2 : x ++ '|' :: '|' :: joinSep ['|', '|'] (y :: rest) =
        (x ++ ['|', '|']) ++ joinSep ['|', '|'] (y :: rest) := by
      simp
    have hdrop : (x ++ '|' :: '|' :: joinSep ['|', '|']
        (y :: rest)).drop (x.length + (['|', '|'] : List Char).length) =
        joinSep ['|', '|'] (y :: rest) := by
      rw [hsplit2, List.drop_left' (by simp)]
    dsimp only
    rw [htake, hdrop,
      splitOnSub_joinSep (y :: rest) (by simp)
        (fun b hbm => hb b (List.mem_cons_of_mem x hbm))]

theorem utf8Len_cons (c : Char) (t : List Char) :
    utf8Len (c :: t) = c.utf8Size + utf8Len t := by
  simp [utf8Len]

theorem utf8Len_append (a b : List Char) :
    utf8Len (a ++ b) = utf8Len a + utf8Len b := by
  simp [utf8Len]

theorem utf8Len_eq_length {s : List Char}
    (h : ∀ c ∈ s, c.utf8Size = 1) : utf8Len s = s.length := by
  induction s with
  | nil => rfl
  | cons c t ih =>
    rw [utf8Len_cons, h c (by simp),
      ih (fun d hd => h d (List.mem_cons_of_mem c hd))]
    simp [Nat.add_comm]

/-- Splitting at the byte length of the left part lands exactly on its
boundary. -/
theorem byteSplitAt_append (l1 l2 : List Char) :
    byteSplitAt (utf8Len l1) (l1 ++ l2) = some (l1, l2) := by
  induction l1 with
  | nil =>
    rw [List.nil_append, show utf8Len ([] : List Char) = 0 from rfl]
    unfold byteSplitAt
    rw [if_pos rfl]
  | cons c t ih =>
    have hpos := Char.utf8Size_pos c
    have hne : utf8Len (c :: t) ≠ 0 := by
      rw [utf8Len_cons]; omega
    unfold byteSplitAt
    rw [if_neg hne]
    dsimp only [List.cons_append]
    rw [if_pos (by rw [utf8Len_cons]; omega),
      show utf8Len (c :: t) - c.utf8Size = utf8Len t from by
        rw [utf8Len_cons]; omega,
      ih]
    rfl

/-- One pass of `remove_out_brackets` over a string of the exact shape
`p&&(I)suf`, with no parenthesis in `p` or `I` and only single-byte
characters in `I` (so the source's byte-indexed `split_at` agrees with
`get_ending_bracket`'s character index): the content is split on `||`
and each piece is glued between `p&&` and `suf`, joined by `||` — AND
distributed over the bracketed OR-group. -/
theorem remove_out_brackets_distributes
    (p inside suf : List Char) (hp : '(' ∉ p)
    (hI : ∀ c ∈ inside, c ≠ '(' ∧ c ≠ ')')
    (hIb : ∀ c ∈ inside, c.utf8Size = 1) :
    Revlog.remove_out_brackets
      (p ++ '&' :: '&' :: '(' :: (inside ++ ')' :: suf)) =
      some (joinSep ['|', '|']
        ((splitOnSub ['|', '|'] inside).map
          (fun b => p ++ '&' :: '&' :: (b ++ suf)))) := by
  have hshape : p ++ '&' :: '&' :: '(' :: (inside ++ ')' :: suf) =
      (p ++ ['&', '&', '(']) ++ (inside ++ ')' :: suf) := by simp
  have hfind : findSub ['&', '&', '(']
      (p ++ '&' :: '&' :: '(' :: (inside ++ ')' :: suf)) =
      some p.length := findSub_amp_marker p _ hp
  have hfindB : findSubByte ['&', '&', '(']
      (p ++ '&' :: '&' :: '(' :: (inside ++ ')' :: suf)) =
      some (utf8Len p) := by
    unfold findSubByte
    rw [hfind]
    dsimp only [Option.map]
    rw [List.take_left' rfl]
  have hm3 : utf8Len ['&', '&', '('] = 3 := by decide
  have h3 : utf8Len (p ++ ['&', '&', '(']) = utf8Len p + 3 := by
    rw [utf8Len_append, hm3]
  have hsplit1 : byteSplitAt (utf8Len p + 3)
      (p ++ '&' :: '&' :: '(' :: (inside ++ ')' :: suf)) =
      some (p ++ ['&', '&', '('], inside ++ ')' :: suf) := by
    rw [hshape, ← h3, byteSplitAt_append]
  have hgeb : Revlog.get_ending_bracket (inside ++ ')' :: suf) =
      some inside.length := by
    unfold Revlog.get_ending_bracket
    rw [gebAux_through inside hI suf 0, Nat.zero_add]
  have hlenI : utf8Len inside = inside.length := utf8Len_eq_length hIb
  have hsplit2 : byteSplitAt inside.length (inside ++ ')' :: suf) =
      some (inside, ')' :: suf) := by
    rw [← hlenI, byteSplitAt_append]
  have hstrip1 : stripSuffixChar '(' (p ++ ['&', '&', '(']) =
      some (p ++ ['&', '&']) := by
    unfold stripSuffixChar stripPrefixChar
    simp
  have hstrip2 : stripPrefixChar ')' (')' :: suf) = some suf := by
    unfold stripPrefixChar
    simp
  unfold Revlog.remove_out_brackets
  rw [hfindB]
  dsimp only
  rw [hsplit1]
  dsimp only
  rw [hgeb]
  dsimp only
  rw [hsplit2]
  dsimp only
  rw [hstrip1, hstrip2]
  dsimp only
  congr 2
  apply List.map_congr_left
  intro b _
  simp

/-- With multi-byte content among the alternatives the source does not
distribute: on `x&&(é||b)` the byte-indexed `split_at` lands short of
the close parenthesis found by the character scan, `strip_prefix(')')`
fails, and the string is returned unchanged. -/
theorem remove_out_brackets_multibyte_unchanged :
    Revlog.remove_out_brackets
      ['x', '&', '&', '(', 'é', '|', '|', 'b', ')'] =
      some ['x', '&', '&', '(', 'é', '|', '|', 'b', ')'] := by decide

/-- With a multi-byte character directly before the close parenthesis,
as in `x&&(é)`, the byte-indexed `split_at` lands mid-character and the
source panics. -/
theorem remove_out_brackets_multibyte_panics :
    Revlog.remove_out_brackets ['x', '&', '&', '(', 'é', ')'] =
      none := by decide

/-- Unfolding of one iteration of the preprocessing loop. -/
theorem pre_process_fuel_succ (n : Nat) (s : List Char) :
    Revlog.pre_process_fuel (n + 1) s =
      (if containsSub ['&', '&', '('] s then
        match Revlog.remove_out_brackets s with
        | none => some none
        | some s2 =>
          if s2 = s then some (some s2)
          else Revlog.pre_process_fuel n s2
      else some (some s)) := rfl

/-- C3 counterexample: with the prefix `u&&(v` (which itself contains
the marker `&&(`), preprocessing `p&&(a||b)` does not produce
`p&&a||p&&b` — the pass matches the earlier marker, finds no balanced
close parenthesis, and leaves the string unchanged. -/
theorem c3_counterexample_marker_in_prefix :
    Revlog.pre_process_fuel 10
        ['u', '&', '&', '(', 'v', '&', '&', '(', 'a', '|', '|', 'b',
          ')'] =
      some (some ['u', '&', '&', '(', 'v', '&', '&', '(', 'a', '|',
        '|', 'b', ')'])
    ∧ (['u', '&', '&', '(', 'v', '&', '&', '(', 'a', '|', '|', 'b',
        ')'] : List Char) ≠
      ['u', '&', '&', '(', 'v', '&', '&', 'a', '|', '|', 'u', '&',
        '&', '(', 'v', '&', '&', 'b'] := by
  constructor
  · decide
  · decide

/-- C3 amended: bracket elimination distributes AND over a
parenthesized OR-group provided the pieces cannot confuse the scan: for
every prefix `p` with no `(`, alternatives `b₁…bₙ` (n ≥ 1) containing
no `|`, `(` or `)`, and suffix `suf` with no `(`, preprocessing
`p&&(b₁||…||bₙ)suf` yields `p&&b₁ suf||…||p&&bₙ suf` and the loop stops
there. -/
theorem c3_bracket_distribution
    (p suf : List Char) (bs : List (List Char)) (fuel : Nat)
    (hp : '(' ∉ p) (hbs : bs ≠ [])
    (hb : ∀ b ∈ bs, '|' ∉ b ∧ '(' ∉ b ∧ ')' ∉ b)
    (hascii : ∀ b ∈ bs, ∀ c ∈ b, c.utf8Size = 1)
    (hsuf : '(' ∉ suf) :
    Revlog.pre_process_fuel (fuel + 2)
        (p ++ '&' :: '&' :: '(' :: (joinSep ['|', '|'] bs ++
          ')' :: suf)) =
      some (some (joinSep ['|', '|']
        (bs.map (fun b => p ++ '&' :: '&' :: (b ++ suf))))) := by
  have hI : ∀ c ∈ joinSep ['|', '|'] bs, c ≠ '(' ∧ c ≠ ')' := by
    intro c hc
    rcases mem_joinSep hc with hs | ⟨xs, hxs, hin⟩
    · simp at hs
      subst hs
      exact ⟨by decide, by decide⟩
    · exact ⟨fun h => (hb xs hxs).2.1 (h ▸ hin),
        fun h => (hb xs hxs).2.2 (h ▸ hin)⟩
  have hIb : ∀ c ∈ joinSep ['|', '|'] bs, c.utf8Size = 1 := by
    intro c hc
    rcases mem_joinSep hc with hs | ⟨xs, hxs, hin⟩
    · simp at hs
      subst hs
      decide
    · exact hascii xs hxs c hin
  have hrob := remove_out_brackets_distributes p
    (joinSep ['|', '|'] bs) suf hp hI hIb
  rw [splitOnSub_joinSep bs hbs (fun b hbm => (hb b hbm).1)] at hrob
  have hRnoparen : '(' ∉ joinSep ['|', '|']
      (bs.map (fun b => p ++ '&' :: '&' :: (b ++ suf))) := by
    intro hmem
    rcases mem_joinSep hmem with hs | ⟨xs, hxs, hin⟩
    · simp at hs
    · rcases List.mem_map.mp hxs with ⟨b, hbmem, rfl⟩
      rcases List.mem_append.mp hin with h1 | h2
      · exact hp h1
      · rcases List.mem_cons.mp h2 with h21 | h22
        · exact absurd h21 (by decide)
        · rcases List.mem_cons.mp h22 with h23 | h24
          · exact absurd h23 (by decide)
          · rcases List.mem_append.mp h24 with h4 | h5
            · exact (hb b hbmem).2.1 h4
            · exact hsuf h5
  have hcont : containsSub ['&', '&', '(']
      (p ++ '&' :: '&' :: '(' :: (joinSep ['|', '|'] bs ++
        ')' :: suf)) = true := by
    unfold containsSub
    rw [findSub_amp_marker p _ hp]
    rfl
  have hparen : '(' ∈ p ++ '&' :: '&' :: '(' :: (joinSep ['|', '|']
      bs ++ ')' :: suf) := by simp
  have hne : joinSep ['|', '|']
      (bs.map (fun b => p ++ '&' :: '&' :: (b ++ suf))) ≠
      p ++ '&' :: '&' :: '(' :: (joinSep ['|', '|'] bs ++
        ')' :: suf) := by
    intro heq
    exact hRnoparen (by rw [heq]; exact hparen)
  have hcontR : ¬(containsSub ['&', '&', '(']
      (joinSep ['|', '|']
        (bs.map (fun b => p ++ '&' :: '&' :: (b ++ suf)))) = true) := by
    unfold containsSub
    rw [findSub_none_of_not_mem (x := '(') (by simp) hRnoparen]
    simp
  rw [show fuel + 2 = (fuel + 1) + 1 from rfl, pre_process_fuel_succ,
    if_pos hcont, hrob]
  dsimp only
  rw [if_neg hne, pre_process_fuel_succ, if_neg hcontR]

/-- Witness for C3's amended claim: `x&&(a||b)` preprocesses to
`x&&a||x&&b`, whose compilation is the two-conjunction query — the
same CompiledQuery the expanded form compiles to. -/
theorem c3_bracket_distribution_witness :
    Revlog.pre_process_fuel 2
        (['x'] ++ '&' :: '&' :: '(' ::
          (joinSep ['|', '|'] [['a'], ['b']] ++ ')' :: [])) =
      some (some (joinSep ['|', '|']
        ([['a'], ['b']].map
          (fun b => ['x'] ++ '&' :: '&' :: (b ++ [])))))
    ∧ Revlog.get_what_to_filter_by
        ['x', '&', '&', 'a', '|', '|', 'x', '&', '&', 'b'] =
      [[(['x'], FilterBy.everywhere), (['a'], FilterBy.everywhere)],
       [(['x'], FilterBy.everywhere), (['b'], FilterBy.everywhere)]] :=
  ⟨c3_bracket_distribution ['x'] [] [['a'], ['b']] 0 (by decide)
      (by decide) (by decide) (by decide) (by decide),
    by decide⟩

/-!
Non-termination of the preprocessing loop. On
`a&&(x||y)&&(u||v)` — two bracket groups, each the right operand of an
`&&` — every pass rewrites the first marker and duplicates the
remainder of the string (which still holds a marker), so the string
grows strictly and neither exit of the loop ever fires. The invariant
below is preserved by `remove_out_brackets`.
-/

/-- The bracket content `u||v` of the repeating group. -/
def uvI : List Char := ['u', '|', '|', 'v']

/-- The tail `||B&&(u||v)` following the first group. -/
def c4Tail (B : List Char) : List Char :=
  '|' :: '|' :: (B ++ '&' :: '&' :: '(' :: (uvI ++ [')']))

/-- The looping shape `A&&(u||v)||B&&(u||v)` with parenthesis-free
`A`, `B`. -/
def c4Shape (s : List Char) : Prop :=
  ∃ A B : List Char, '(' ∉ A ∧ '(' ∉ B ∧
    s = A ++ '&' :: '&' :: '(' :: (uvI ++ ')' :: c4Tail B)

theorem c4_inv_step {s : List Char} (h : c4Shape s) :
    containsSub ['&', '&', '('] s = true
    ∧ ∃ s2 : List Char, Revlog.remove_out_brackets s = some s2
        ∧ s2 ≠ s ∧ c4Shape s2 := by
  obtain ⟨A, B, hA, hB, rfl⟩ := h
  have hI : ∀ c ∈ uvI, c ≠ '(' ∧ c ≠ ')' := by decide
  have hIb : ∀ c ∈ uvI, c.utf8Size = 1 := by decide
  have hrob := remove_out_brackets_distributes A uvI (c4Tail B) hA hI
    hIb
  have hsplit : splitOnSub ['|', '|'] uvI = [['u'], ['v']] := by decide
  rw [hsplit] at hrob
  have hR : Revlog.remove_out_brackets
      (A ++ '&' :: '&' :: '(' :: (uvI ++ ')' :: c4Tail B)) =
      some ((A ++ '&' :: '&' :: 'u' :: '|' :: '|' :: B) ++
        '&' :: '&' :: '(' :: (uvI ++ ')' ::
          c4Tail (A ++ '&' :: '&' :: 'v' :: '|' :: '|' :: B))) := by
    rw [hrob]
    simp [joinSep, c4Tail, uvI]
  have hApf : '(' ∉ A ++ '&' :: '&' :: 'u' :: '|' :: '|' :: B := by
    intro hm
    rcases List.mem_append.mp hm with h1 | h2
    · exact hA h1
    · rcases List.mem_cons.mp h2 with h | h2
      · exact absurd h (by decide)
      · rcases List.mem_cons.mp h2 with h | h2
        · exact absurd h (by decide)
        · rcases List.mem_cons.mp h2 with h | h2
          · exact absurd h (by decide)
          · rcases List.mem_cons.mp h2 with h | h2
            · exact absurd h (by decide)
            · rcases List.mem_cons.mp h2 with h | h2
              · exact absurd h (by decide)
              · exact hB h2
  have hBpf : '(' ∉ A ++ '&' :: '&' :: 'v' :: '|' :: '|' :: B := by
    intro hm
    rcases List.mem_append.mp hm with h1 | h2
    · exact hA h1
    · rcases List.mem_cons.mp h2 with h | h2
      · exact absurd h (by decide)
      · rcases List.mem_cons.mp h2 with h | h2
        · exact absurd h (by decide)
        · rcases List.mem_cons.mp h2 with h | h2
          · exact absurd h (by decide)
          · rcases List.mem_cons.mp h2 with h | h2
            · exact absurd h (by decide)
            · rcases List.mem_cons.mp h2 with h | h2
              · exact absurd h (by decide)
              · exact hB h2
  refine ⟨?_, (A ++ '&' :: '&' :: 'u' :: '|' :: '|' :: B) ++
      '&' :: '&' :: '(' :: (uvI ++ ')' ::
        c4Tail (A ++ '&' :: '&' :: 'v' :: '|' :: '|' :: B)),
      hR, ?_, ?_⟩
  · unfold containsSub
    rw [findSub_amp_marker A _ hA]
    rfl
  · intro heq
    have hlen := congrArg List.length heq
    simp [c4Tail, uvI] at hlen
    omega
  · exact ⟨A ++ '&' :: '&' :: 'u' :: '|' :: '|' :: B,
      A ++ '&' :: '&' :: 'v' :: '|' :: '|' :: B, hApf, hBpf, rfl⟩

theorem c4_nonterm :
    ∀ (fuel : Nat) (s : List Char), c4Shape s →
      Revlog.pre_process_fuel fuel s = none := by
  intro fuel
  induction fuel with
  | zero => intro s _; rfl
  | succ n ih =>
    intro s h
    obtain ⟨hc, s2, hrob, hne, hinv⟩ := c4_inv_step h
    rw [pre_process_fuel_succ, if_pos hc, hrob]
    dsimp only
    rw [if_neg hne]
    exact ih _ hinv

/-- The input `a&&(u||v)||b&&(u||v)`. -/
def c4InputA : List Char :=
  ['a', '&', '&', '(', 'u', '|', '|', 'v', ')', '|', '|', 'b', '&',
   '&', '(', 'u', '|', '|', 'v', ')']

/-- The input `a&&(x||y)&&(u||v)`. -/
def c4InputB : List Char :=
  ['a', '&', '&', '(', 'x', '|', '|', 'y', ')', '&', '&', '(', 'u',
   '|', '|', 'v', ')']

/-- C4 is violated by the code: the bracket-elimination loop does not
terminate on every input. On `a&&(x||y)&&(u||v)` (and on the shape it
rewrites to, such as `a&&(u||v)||b&&(u||v)`), every pass keeps a `&&(`
marker present and changes the string (it grows), so for every fuel the
loop is still running: neither the no-marker exit nor the no-progress
exit ever fires. -/
theorem c4_preprocess_never_terminates :
    (∀ fuel : Nat, Revlog.pre_process_fuel fuel c4InputB = none)
    ∧ (∀ fuel : Nat, Revlog.pre_process_fuel fuel c4InputA = none) := by
  have hA : ∀ fuel, Revlog.pre_process_fuel fuel c4InputA = none := by
    intro fuel
    exact c4_nonterm fuel _ ⟨['a'], ['b'], by decide, by decide,
      by decide⟩
  refine ⟨?_, hA⟩
  intro fuel
  cases fuel with
  | zero => rfl
  | succ n =>
    have hrw : Revlog.remove_out_brackets c4InputB =
        some ['a', '&', '&', 'x', '&', '&', '(', 'u', '|', '|', 'v',
          ')', '|', '|', 'a', '&', '&', 'y', '&', '&', '(', 'u', '|',
          '|', 'v', ')'] := by decide
    rw [pre_process_fuel_succ, if_pos (by decide), hrw]
    dsimp only
    rw [if_neg (by decide)]
    exact c4_nonterm n _ ⟨['a', '&', '&', 'x'], ['a', '&', '&', 'y'],
      by decide, by decide, by decide⟩

end Gitui
